import Mathlib

/-!
Verification of the ad-distribution core (`distribution_logic.py`,
`distribute_ads_automatically`) against its specification.

The program is shallowly embedded:
* a pandas cell is `Cell` (a number, a piece of text, or NaN);
* a snapshot dataframe is `Snapshot` (its column names plus its rows);
* `pd.to_numeric(..., errors='coerce')` is `Cell.toNumeric`;
* floating-point arithmetic is embedded as exact rational arithmetic (`ℚ`);
* Python's `str.strip()`, `str.lower()` and `split(',')` are re-implemented
  structurally on `List Char` (`pyStrip`, `pyLower`, `pySplitComma`) so that
  everything evaluates;
* the pandas `sort_values(by=..., ascending=False)` used to rank fractional
  remainders computes an ascending argsort and then reverses it (pandas
  `nargsort`), embedded as `argsortAsc` followed by `List.reverse`; numpy's
  default argsort is its stable insertion sort only on arrays of at most
  `SMALL_QUICKSORT` (about 15) entries and an introsort with unspecified tie
  order above, while `argsortAsc` fixes the stable order at every size - so
  the tie order of `argsortAsc` is relied on only in statements restricted
  to at most 15 entries, and everything else uses only its permutation and
  length facts, which hold for any argsort;
* `st.warning`/`st.error` calls only emit UI text and are not modelled;
* the wall-clock fields `DistributionID` and `DistributionDate` of a log row
  are timestamp-derived and carry no allocation content, so `LogEntry` keeps
  the remaining five columns.
-/

namespace AdDist

/-! ## Python-style string primitives -/

/-- A character counted as whitespace by `str.strip()` (ASCII fragment). -/
def isSpaceChar (c : Char) : Bool :=
  c = ' ' || c = '\t' || c = '\n' || c = '\r'

/-- ASCII lower-casing of one character, as `str.lower()` does. -/
def lowerChar (c : Char) : Char :=
  if 'A' ≤ c && c ≤ 'Z' then Char.ofNat (c.toNat + 32) else c

/-- `str.strip()` on a character list. -/
def stripL (l : List Char) : List Char :=
  ((l.dropWhile isSpaceChar).reverse.dropWhile isSpaceChar).reverse

/-- `str.strip()`. -/
def pyStrip (s : String) : String := ⟨stripL s.data⟩

/-- `str.lower()`. -/
def pyLower (s : String) : String := ⟨s.data.map lowerChar⟩

/-- `str.split(',')` on a character list: the chunks between commas,
empty chunks included. -/
def splitCommaL : List Char → List (List Char)
  | [] => [[]]
  | c :: rest =>
    let r := splitCommaL rest
    if c = ',' then [] :: r
    else
      match r with
      | [] => [[c]]
      | t :: ts => (c :: t) :: ts

/-- `str.split(',')`. -/
def pySplitComma (s : String) : List String := (splitCommaL s.data).map (⟨·⟩)

/-! ## Numeric cells and `pd.to_numeric` -/

/-- One cell of the snapshot: a number, free text, or a missing value. -/
inductive Cell where
  | num (q : ℚ)
  | str (s : String)
  | na
deriving DecidableEq

/-- Digits-to-value, `none` on a non-digit. -/
def digitsVal? (l : List Char) : Option ℕ :=
  l.foldlM (fun acc c => if c.isDigit then some (acc * 10 + (c.toNat - 48)) else none) 0

/-- Split a character list at the first dot, if any. -/
def splitDot (l : List Char) : List Char × Option (List Char) :=
  match l with
  | [] => ([], none)
  | c :: rest =>
    if c = '.' then ([], some rest)
    else
      let r := splitDot rest
      (c :: r.1, r.2)

/-- Parse decimal text (optional sign, optional fraction part) to an exact
rational, as pandas' numeric coercion does for plain decimal literals;
anything else is `none` (and coerces to NaN). -/
def parseRat? (s : String) : Option ℚ :=
  let t := stripL s.data
  let neg : Bool := match t with | '-' :: _ => true | _ => false
  let body : List Char := match t with | '-' :: r => r | '+' :: r => r | _ => t
  let (ip, fp?) := splitDot body
  let mag? : Option ℚ :=
    match fp? with
    | none =>
      match digitsVal? ip with
      | some n => if ip.isEmpty then none else some (n : ℚ)
      | none => none
    | some fp =>
      if ip.isEmpty && fp.isEmpty then none
      else
        match digitsVal? ip, digitsVal? fp with
        | some n, some m => some ((n : ℚ) + (m : ℚ) / (10 : ℚ) ^ fp.length)
        | _, _ => none
  mag?.map (fun q => if neg then -q else q)

/-- `pd.to_numeric(cell, errors='coerce')`: numbers stay, text that parses
becomes a number, everything else becomes NaN. -/
def Cell.toNumeric : Cell → Cell
  | Cell.num q => Cell.num q
  | Cell.na => Cell.na
  | Cell.str s =>
    match parseRat? s with
    | some q => Cell.num q
    | none => Cell.na

/-- Numeric value of a coerced cell after `fillna(0)`. -/
def numVal : Cell → ℚ
  | Cell.num q => q
  | _ => 0

/-! ## The snapshot data model -/

/-- One row of the projects snapshot.  Text columns that the code reads
through the `.str` accessor or `pd.isna` are `Option String`
(`none` = NaN); the four columns the code runs through `pd.to_numeric`
are kept as raw `Cell`s. -/
structure RawProject where
  projectID : String
  regionName : Option String
  req : Option String
  projectOrder : Cell
  projectExcellenceScore : Cell
  marketingSize : Cell
  adsDistributed : Cell
  unitTypesInProject : Option String
deriving DecidableEq

/-- The projects dataframe: its column names and its rows. -/
structure Snapshot where
  cols : List String
  rows : List RawProject
deriving DecidableEq

/-- The eight columns `distribute_ads_automatically` insists on. -/
def requiredCols : List String :=
  ["ProjectID", "RegionName", "Req", "ProjectOrder", "ProjectExcellenceScore",
   "MarketingSize", "AdsDistributed", "UnitTypesInProject"]

/-- All required columns are present (the guard at the top of the function). -/
def requiredPresent (df : Snapshot) : Prop :=
  ∀ c ∈ requiredCols, c ∈ df.cols

instance (df : Snapshot) : Decidable (requiredPresent df) := by
  unfold requiredPresent; infer_instance

/-- The in-place `projects_df[col] = pd.to_numeric(projects_df[col], ...)`
loop, applied to one row. -/
def coerceRow (r : RawProject) : RawProject :=
  { r with
    projectOrder := r.projectOrder.toNumeric
    projectExcellenceScore := r.projectExcellenceScore.toNumeric
    marketingSize := r.marketingSize.toNumeric
    adsDistributed := r.adsDistributed.toNumeric }

/-- The numeric coercion applied to the whole dataframe (this mutates the
caller's dataframe in the source). -/
def coerceDF (df : Snapshot) : Snapshot :=
  ⟨df.cols, df.rows.map coerceRow⟩

/-! ## Eligibility filter and scores -/

/-- Row selected for the region (`RegionName` matches case/whitespace
insensitively) and requiring marketing (`Req` normalises to `"yes"`).
A NaN in either text column never matches. -/
def isEligible (region : String) (r : RawProject) : Bool :=
  (match r.regionName with
   | some s => pyLower (pyStrip s) == pyLower (pyStrip region)
   | none => false) &&
  (match r.req with
   | some s => pyLower (pyStrip s) == "yes"
   | none => false)

/-- The filtered eligible subset, in original row order, over the coerced
dataframe. -/
def eligRows (df : Snapshot) (region : String) : List RawProject :=
  (coerceDF df).rows.filter (isEligible region)

/-- `ProjectOrder` as a number (NaN filled with 0). -/
def orderVal (r : RawProject) : ℚ := numVal r.projectOrder

/-- Maximum of a list, 0 when empty (matching `Series.max()` on the
non-empty eligible set). -/
def listMax : List ℚ → ℚ
  | [] => 0
  | x :: xs => xs.foldl max x

/-- `PriorityScore = max_order - ProjectOrder + 1`. -/
def priorityScore (maxOrder : ℚ) (r : RawProject) : ℚ :=
  maxOrder - orderVal r + 1

/-- `DemandScore = 5`. -/
def demandScore : ℚ := 5

/-- `ExcellenceScoreCalc = ProjectExcellenceScore / 10`. -/
def excellenceScore (r : RawProject) : ℚ :=
  numVal r.projectExcellenceScore / 10

/-- `RemainingSizeScore = (MarketingSize - AdsDistributed).clip(lower=0)`. -/
def remainingSizeScore (r : RawProject) : ℚ :=
  max (numVal r.marketingSize - numVal r.adsDistributed) 0

/-- `TotalScore`: the four components summed, clipped at 0. -/
def totalScore (maxOrder : ℚ) (r : RawProject) : ℚ :=
  max (priorityScore maxOrder r + demandScore + excellenceScore r +
       remainingSizeScore r) 0

/-- The weight vector of the project-level apportionment: the `TotalScore`
column of the eligible subset. -/
def weightsOf (df : Snapshot) (region : String) : List ℚ :=
  let e := eligRows df region
  e.map (totalScore (listMax (e.map orderVal)))

/-! ## The integer apportioner (lines 94–110)

`CalculatedAds = TotalScore / total_importance_score * num_ads_to_distribute`,
floored to an integer award, with `remainder_ads` extra units handed out one
by one along the `sort_values(by="RemainderPriority", ascending=False)`
ranking. -/

/-- The continuous `CalculatedAds` column. -/
def sharesOf (ws : List ℚ) (Q : ℕ) : List ℚ :=
  ws.map (fun w => w / ws.sum * (Q : ℚ))

/-- The floored `AllocatedAdsProject` column before remainder hand-out. -/
def baseOf (ws : List ℚ) (Q : ℕ) : List ℤ :=
  (sharesOf ws Q).map (fun q => ⌊q⌋)

/-- The `RemainderPriority` column (fractional part of the share) read at a
positional index. -/
def fracAt (ws : List ℚ) (Q : ℕ) (i : ℕ) : ℚ :=
  (sharesOf ws Q).getD i 0 - (((baseOf ws Q).getD i 0 : ℤ) : ℚ)

/-- Insert an index into an ascending run, after any index of equal value
(the stable step of an insertion sort). -/
def insertAsc (v : ℕ → ℚ) (i : ℕ) : List ℕ → List ℕ
  | [] => [i]
  | j :: js => if v i < v j then i :: j :: js else j :: insertAsc v i js

/-- Ascending argsort of the indices `0, …, n-1` by value `v`, realised as
a stable insertion sort.  This is exactly what numpy's default argsort
computes for arrays of at most `SMALL_QUICKSORT` (about 15) entries; on
larger arrays numpy switches to an unstable introsort whose tie order is
unspecified, so statements about the tie order of this embedding are
asserted only under that size bound, and everything else depends on this
definition only through its permutation and length lemmas, which are valid
for any argsort. -/
def argsortAsc (v : ℕ → ℚ) : ℕ → List ℕ
  | 0 => []
  | n + 1 => insertAsc v n (argsortAsc v n)

/-- `sorted_indices`: pandas' descending sort is the reverse of the stable
ascending argsort, so equal fractional parts end up in reverse input
order. -/
def assignOrderOf (ws : List ℚ) (Q : ℕ) : List ℕ :=
  (argsortAsc (fracAt ws Q) ws.length).reverse

/-- How many extra units the remainder loop hands out:
`range(min(remainder_ads, len(region_projects)))` (empty for a negative
remainder). -/
def numExtrasOf (ws : List ℚ) (Q : ℕ) : ℕ :=
  (min ((Q : ℤ) - (baseOf ws Q).sum) (ws.length : ℤ)).toNat

/-- `region_projects.loc[idx, "AllocatedAdsProject"] += 1` at one positional
index. -/
def bumpAt : List ℤ → ℕ → List ℤ
  | [], _ => []
  | x :: xs, 0 => (x + 1) :: xs
  | x :: xs, n + 1 => x :: bumpAt xs n

/-- The final `AllocatedAdsProject` column: floors plus one extra unit for
each of the first `numExtrasOf` indices of the descending-remainder
ranking. -/
def apportion (ws : List ℚ) (Q : ℕ) : List ℤ :=
  ((assignOrderOf ws Q).take (numExtrasOf ws Q)).foldl bumpAt (baseOf ws Q)

/-- The project-level integer awards of the whole pipeline. -/
def projAwards (df : Snapshot) (region : String) (Q : ℕ) : List ℤ :=
  apportion (weightsOf df region) Q

/-! ## The log assembler (lines 113–170) -/

/-- One row of the distribution log.  `DistributionID` and
`DistributionDate` are wall-clock timestamp data with no allocation
content and are not modelled. -/
structure LogEntry where
  employeeID : String
  projectID : String
  regionName : String
  unitTypeName : String
  adsAllocated : ℤ
deriving DecidableEq

/-- Parse `UnitTypesInProject`: NaN or blank text gives no unit types;
otherwise split on commas, strip each token, drop empty tokens.  (The
source guards the blank case and the empty-token-list case separately,
with identical observable effect.) -/
def parseUnits : Option String → List String
  | none => []
  | some s =>
    if (pyStrip s).data.isEmpty then []
    else ((pySplitComma s).map pyStrip).filter (fun t => !t.data.isEmpty)

/-- The sub-award of the `i`-th unit type when `a` ads are split over `k`
unit types: `a // k` plus one extra for the first `a % k` of them. -/
def subAward (a : ℤ) (k : ℕ) (i : ℕ) : ℤ :=
  a.ediv (k : ℤ) + (if (i : ℤ) < a.emod (k : ℤ) then 1 else 0)

/-- All `k` sub-awards of a project in unit-type order. -/
def subAwards (a : ℤ) (k : ℕ) : List ℤ :=
  (List.range k).map (subAward a k)

/-- The log rows one project contributes: one row per unit type with a
positive sub-award, in listed order. -/
def rowsFor (region emp : String) (r : RawProject) (a : ℤ) : List LogEntry :=
  let units := parseUnits r.unitTypesInProject
  ((units.enum.map (fun iu =>
      (⟨emp, r.projectID, region, iu.2, subAward a units.length iu.1⟩ : LogEntry))).filter
    (fun e => 0 < e.adsAllocated))

/-- Python-dict assignment `project_ads_update[pid] = a` on an association
list: replace the value in place if the key exists, else append. -/
def upsert : List (String × ℤ) → String → ℤ → List (String × ℤ)
  | [], k, v => [(k, v)]
  | (k', v') :: rest, k, v =>
    if k' = k then (k, v) :: rest else (k', v') :: upsert rest k v

/-- Python-dict lookup. -/
def lookupMap : List (String × ℤ) → String → Option ℤ
  | [], _ => none
  | (k', v') :: rest, k => if k' = k then some v' else lookupMap rest k

/-- One iteration of the per-project loop (lines 116–158): skip awards `≤ 0`,
record the project delta, then append one log row per positively
sub-awarded unit type (none when the unit-type list is missing/blank/
parses empty). -/
def processRow (region emp : String) (acc : List LogEntry × List (String × ℤ))
    (pa : RawProject × ℤ) : List LogEntry × List (String × ℤ) :=
  if pa.2 ≤ 0 then acc
  else
    let m := upsert acc.2 pa.1.projectID pa.2
    if parseUnits pa.1.unitTypesInProject = [] then (acc.1, m)
    else (acc.1 ++ rowsFor region emp pa.1 pa.2, m)

/-- `distribute_ads_automatically`.  The returned quadruple is the log
table, the project-update map, `total_ads_allocated`, and the state of the
caller's dataframe after the call (the source coerces the four numeric
columns of `projects_df` in place once the column check passes). -/
def distribute (df : Snapshot) (region : String) (Q : ℕ) (emp : String) :
    List LogEntry × List (String × ℤ) × ℤ × Snapshot :=
  if requiredPresent df then
    let df' := coerceDF df
    let elig := eligRows df region
    if elig = [] then ([], [], 0, df')
    else
      let ws := weightsOf df region
      if ws.sum ≤ 0 then ([], [], 0, df')
      else
        let st := (elig.zip (projAwards df region Q)).foldl (processRow region emp) ([], [])
        (st.1, st.2, (projAwards df region Q).sum, df')
  else ([], [], 0, df)

/-- The eligible rows paired with their integer awards, when the run reaches
the allocation stage; `[]` in each of the three early-return cases. -/
def awardPairs (df : Snapshot) (region : String) (Q : ℕ) :
    List (RawProject × ℤ) :=
  if requiredPresent df then
    if eligRows df region = [] then []
    else if (weightsOf df region).sum ≤ 0 then []
    else (eligRows df region).zip (projAwards df region Q)
  else []

/-- The log rows contributed by one award pair. -/
def newRows (region emp : String) (pa : RawProject × ℤ) : List LogEntry :=
  if 0 < pa.2 ∧ parseUnits pa.1.unitTypesInProject ≠ [] then
    rowsFor region emp pa.1 pa.2
  else []

/-- The total award of positively-awarded projects whose unit-type list
parsed empty (ads counted toward the total but absent from the log). -/
def droppedSum (df : Snapshot) (region : String) (Q : ℕ) : ℤ :=
  ((awardPairs df region Q).map (fun pa =>
    if 0 < pa.2 ∧ parseUnits pa.1.unitTypesInProject = [] then pa.2 else 0)).sum

/-! ## Lemmas about the apportioner -/

lemma sum_map_div_mul (l : List ℚ) (c d : ℚ) :
    (l.map (fun w => w / c * d)).sum = l.sum / c * d := by
  induction l with
  | nil => simp
  | cons x xs ih => simp [ih]; ring

lemma sharesOf_length (ws : List ℚ) (Q : ℕ) :
    (sharesOf ws Q).length = ws.length := by
  simp [sharesOf]

lemma baseOf_length (ws : List ℚ) (Q : ℕ) :
    (baseOf ws Q).length = ws.length := by
  simp [baseOf, sharesOf]

lemma sharesOf_sum (ws : List ℚ) (Q : ℕ) (hpos : 0 < ws.sum) :
    (sharesOf ws Q).sum = (Q : ℚ) := by
  unfold sharesOf
  rw [sum_map_div_mul, div_self hpos.ne', one_mul]

lemma floors_sum_le (l : List ℚ) :
    (((l.map (fun q => ⌊q⌋)).sum : ℤ) : ℚ) ≤ l.sum := by
  induction l with
  | nil => simp
  | cons x xs ih =>
    have hx := Int.floor_le x
    simp only [List.map_cons, List.sum_cons]
    push_cast
    push_cast at ih
    linarith

lemma sum_le_floors_add (l : List ℚ) :
    l.sum ≤ (((l.map (fun q => ⌊q⌋)).sum : ℤ) : ℚ) + l.length := by
  induction l with
  | nil => simp
  | cons x xs ih =>
    have hx := Int.lt_floor_add_one x
    simp only [List.map_cons, List.sum_cons, List.length_cons]
    push_cast
    push_cast at ih
    linarith

lemma baseOf_sum_le (ws : List ℚ) (Q : ℕ) (hpos : 0 < ws.sum) :
    (baseOf ws Q).sum ≤ (Q : ℤ) := by
  have h := floors_sum_le (sharesOf ws Q)
  rw [sharesOf_sum ws Q hpos] at h
  exact_mod_cast h

lemma baseOf_sum_ge (ws : List ℚ) (Q : ℕ) (hpos : 0 < ws.sum) :
    (Q : ℤ) - (ws.length : ℤ) ≤ (baseOf ws Q).sum := by
  have h := sum_le_floors_add (sharesOf ws Q)
  rw [sharesOf_sum ws Q hpos, sharesOf_length] at h
  have h0 : (Q : ℚ) ≤ (((baseOf ws Q).sum : ℤ) : ℚ) + (ws.length : ℚ) := h
  have h' : ((Q : ℤ) : ℚ) - ((ws.length : ℤ) : ℚ) ≤ (((baseOf ws Q).sum : ℤ) : ℚ) := by
    push_cast
    push_cast at h0
    linarith
  exact_mod_cast h'

lemma numExtrasOf_cast (ws : List ℚ) (Q : ℕ) (hpos : 0 < ws.sum) :
    ((numExtrasOf ws Q : ℕ) : ℤ) = (Q : ℤ) - (baseOf ws Q).sum := by
  have h1 := baseOf_sum_le ws Q hpos
  have h2 := baseOf_sum_ge ws Q hpos
  unfold numExtrasOf
  rw [min_eq_left (by omega), Int.toNat_of_nonneg (by omega)]

lemma numExtrasOf_le (ws : List ℚ) (Q : ℕ) (hpos : 0 < ws.sum) :
    numExtrasOf ws Q ≤ ws.length := by
  have h1 := numExtrasOf_cast ws Q hpos
  have h2 := baseOf_sum_ge ws Q hpos
  omega

lemma insertAsc_length (v : ℕ → ℚ) (i : ℕ) (l : List ℕ) :
    (insertAsc v i l).length = l.length + 1 := by
  induction l with
  | nil => rfl
  | cons j js ih =>
    unfold insertAsc
    split
    · rfl
    · simp [ih]

lemma argsortAsc_length (v : ℕ → ℚ) (n : ℕ) :
    (argsortAsc v n).length = n := by
  induction n with
  | zero => rfl
  | succ n ih => unfold argsortAsc; rw [insertAsc_length, ih]

lemma assignOrderOf_length (ws : List ℚ) (Q : ℕ) :
    (assignOrderOf ws Q).length = ws.length := by
  simp [assignOrderOf, argsortAsc_length]

lemma insertAsc_perm (v : ℕ → ℚ) (i : ℕ) (l : List ℕ) :
    List.Perm (insertAsc v i l) (i :: l) := by
  induction l with
  | nil => exact List.Perm.refl _
  | cons j js ih =>
    unfold insertAsc
    split
    · exact List.Perm.refl _
    · exact (ih.cons j).trans (List.Perm.swap i j js)

lemma argsortAsc_perm (v : ℕ → ℚ) (n : ℕ) :
    List.Perm (argsortAsc v n) (List.range n) := by
  induction n with
  | zero => exact List.Perm.refl _
  | succ n ih =>
    unfold argsortAsc
    refine ((insertAsc_perm v n _).trans (ih.cons n)).trans ?h
    rw [List.range_succ]
    exact (List.perm_append_singleton n (List.range n)).symm

lemma mem_argsortAsc_lt {v : ℕ → ℚ} {n i : ℕ} (h : i ∈ argsortAsc v n) :
    i < n := by
  have := (argsortAsc_perm v n).mem_iff.mp h
  exact List.mem_range.mp this

lemma mem_assignOrderOf_lt {ws : List ℚ} {Q i : ℕ}
    (h : i ∈ assignOrderOf ws Q) : i < ws.length := by
  unfold assignOrderOf at h
  exact mem_argsortAsc_lt (List.mem_reverse.mp h)

lemma bumpAt_length (l : List ℤ) (i : ℕ) : (bumpAt l i).length = l.length := by
  induction l generalizing i with
  | nil => rfl
  | cons x xs ih =>
    cases i with
    | zero => rfl
    | succ n => simp [bumpAt, ih]

lemma bumpAt_sum {l : List ℤ} {i : ℕ} (h : i < l.length) :
    (bumpAt l i).sum = l.sum + 1 := by
  induction l generalizing i with
  | nil => simp at h
  | cons x xs ih =>
    cases i with
    | zero => simp [bumpAt]; ring
    | succ n =>
      have hn : n < xs.length := by simpa using h
      simp [bumpAt, ih hn]
      ring

lemma foldl_bumpAt_length (idxs : List ℕ) (l : List ℤ) :
    (idxs.foldl bumpAt l).length = l.length := by
  induction idxs generalizing l with
  | nil => rfl
  | cons i is ih => simp [List.foldl_cons, ih, bumpAt_length]

lemma foldl_bumpAt_sum (idxs : List ℕ) (l : List ℤ)
    (h : ∀ i ∈ idxs, i < l.length) :
    (idxs.foldl bumpAt l).sum = l.sum + (idxs.length : ℤ) := by
  induction idxs generalizing l with
  | nil => simp
  | cons i is ih =>
    have hi : i < l.length := h i (by simp)
    have hrest : ∀ j ∈ is, j < (bumpAt l i).length := by
      intro j hj
      rw [bumpAt_length]
      exact h j (by simp [hj])
    simp only [List.foldl_cons, List.length_cons]
    rw [ih (bumpAt l i) hrest, bumpAt_sum hi]
    push_cast
    ring

lemma apportion_length (ws : List ℚ) (Q : ℕ) :
    (apportion ws Q).length = ws.length := by
  unfold apportion
  rw [foldl_bumpAt_length, baseOf_length]

lemma apportion_sum (ws : List ℚ) (Q : ℕ) (hpos : 0 < ws.sum) :
    (apportion ws Q).sum = (Q : ℤ) := by
  unfold apportion
  have hmem : ∀ i ∈ (assignOrderOf ws Q).take (numExtrasOf ws Q),
      i < (baseOf ws Q).length := by
    intro i hi
    rw [baseOf_length]
    exact mem_assignOrderOf_lt (List.mem_of_mem_take hi)
  rw [foldl_bumpAt_sum _ _ hmem]
  have htake : ((assignOrderOf ws Q).take (numExtrasOf ws Q)).length
      = numExtrasOf ws Q := by
    rw [List.length_take, assignOrderOf_length,
      min_eq_left (numExtrasOf_le ws Q hpos)]
  rw [htake, numExtrasOf_cast ws Q hpos]
  ring

lemma sharesOf_nonneg (ws : List ℚ) (Q : ℕ) (hw : ∀ w ∈ ws, 0 ≤ w) :
    ∀ q ∈ sharesOf ws Q, 0 ≤ q := by
  intro q hq
  obtain ⟨w, hw', rfl⟩ := List.mem_map.mp hq
  have hS : 0 ≤ ws.sum := List.sum_nonneg hw
  exact mul_nonneg (div_nonneg (hw w hw') hS) (by positivity)

lemma bumpAt_nonneg {l : List ℤ} {i : ℕ} (h : ∀ a ∈ l, 0 ≤ a) :
    ∀ a ∈ bumpAt l i, 0 ≤ a := by
  induction l generalizing i with
  | nil => intro a ha; simp [bumpAt] at ha
  | cons x xs ih =>
    cases i with
    | zero =>
      intro a ha
      rcases List.mem_cons.mp ha with rfl | ha'
      · have := h x (by simp)
        omega
      · exact h a (by simp [ha'])
    | succ n =>
      intro a ha
      rcases List.mem_cons.mp ha with rfl | ha'
      · exact h a (by simp)
      · exact ih (fun b hb => h b (by simp [hb])) a ha'

lemma foldl_bumpAt_nonneg (idxs : List ℕ) (l : List ℤ) (h : ∀ a ∈ l, 0 ≤ a) :
    ∀ a ∈ idxs.foldl bumpAt l, 0 ≤ a := by
  induction idxs generalizing l with
  | nil => simpa using h
  | cons i is ih =>
    intro a ha
    exact ih (bumpAt l i) (bumpAt_nonneg h) a (by simpa using ha)

lemma apportion_nonneg (ws : List ℚ) (Q : ℕ) (hw : ∀ w ∈ ws, 0 ≤ w) :
    ∀ a ∈ apportion ws Q, 0 ≤ a := by
  unfold apportion
  have hbase : ∀ a ∈ baseOf ws Q, 0 ≤ a := by
    intro a ha
    obtain ⟨q, hq, rfl⟩ := List.mem_map.mp ha
    exact Int.floor_nonneg.mpr (sharesOf_nonneg ws Q hw q hq)
  exact foldl_bumpAt_nonneg _ _ hbase

/-! ## Stability of the remainder ranking -/

/-- `i` is ranked strictly before `j` in a stable ascending argsort:
smaller value, or equal value and earlier input position. -/
def rankR (v : ℕ → ℚ) (i j : ℕ) : Prop :=
  v i < v j ∨ (v i = v j ∧ i < j)

lemma mem_insertAsc {v : ℕ → ℚ} {i k : ℕ} {l : List ℕ} :
    k ∈ insertAsc v i l ↔ k = i ∨ k ∈ l := by
  rw [(insertAsc_perm v i l).mem_iff, List.mem_cons]

lemma pairwise_insertAsc (v : ℕ → ℚ) (i : ℕ) (l : List ℕ)
    (h1 : l.Pairwise (rankR v)) (h2 : ∀ j ∈ l, j < i) :
    (insertAsc v i l).Pairwise (rankR v) := by
  induction l with
  | nil => simp [insertAsc]
  | cons j js ih =>
    rw [List.pairwise_cons] at h1
    unfold insertAsc
    split
    case isTrue hlt =>
      apply List.Pairwise.cons
      · intro k hk
        rcases List.mem_cons.mp hk with he | hk'
        · subst he
          exact Or.inl hlt
        · rcases h1.1 k hk' with h | h
          · exact Or.inl (lt_trans hlt h)
          · exact Or.inl (h.1 ▸ hlt)
      · exact List.Pairwise.cons h1.1 h1.2
    case isFalse hge =>
      apply List.Pairwise.cons
      · intro k hk
        rcases mem_insertAsc.mp hk with he | hk'
        · subst he
          rcases lt_or_eq_of_le (le_of_not_lt hge) with h | h
          · exact Or.inl h
          · exact Or.inr ⟨h, h2 j (by simp)⟩
        · exact h1.1 k hk'
      · exact ih h1.2 (fun j' hj' => h2 j' (List.mem_cons_of_mem _ hj'))

lemma pairwise_argsortAsc (v : ℕ → ℚ) (n : ℕ) :
    (argsortAsc v n).Pairwise (rankR v) := by
  induction n with
  | zero => exact List.Pairwise.nil
  | succ n ih =>
    exact pairwise_insertAsc v n _ ih (fun j hj => mem_argsortAsc_lt hj)

/-! ## Sub-award arithmetic -/

lemma sum_map_add_int {α : Type} (l : List α) (f g : α → ℤ) :
    (l.map (fun x => f x + g x)).sum = (l.map f).sum + (l.map g).sum := by
  induction l with
  | nil => simp
  | cons x xs ih => simp [ih]; ring

lemma sum_map_const_int {α : Type} (l : List α) (c : ℤ) :
    (l.map (fun _ => c)).sum = (l.length : ℤ) * c := by
  induction l with
  | nil => simp
  | cons x xs ih => simp [ih]; push_cast; ring

lemma sum_indicator_range (k : ℕ) (e : ℤ) (he : 0 ≤ e) :
    ((List.range k).map (fun (i : ℕ) => if (i : ℤ) < e then (1 : ℤ) else 0)).sum
      = min e (k : ℤ) := by
  induction k with
  | zero => simp; omega
  | succ n ih =>
    rw [List.range_succ, List.map_append, List.sum_append, ih]
    simp only [List.map_cons, List.map_nil, List.sum_cons, List.sum_nil]
    split
    case isTrue h => omega
    case isFalse h => omega

lemma subAwards_sum (a : ℤ) (k : ℕ) (hk : 0 < k) : (subAwards a k).sum = a := by
  have hkz : (k : ℤ) ≠ 0 := by exact_mod_cast hk.ne'
  have hsplit : subAward a k
      = fun (i : ℕ) =>
        a.ediv (k : ℤ) + (if (i : ℤ) < a.emod (k : ℤ) then (1 : ℤ) else 0) := rfl
  unfold subAwards
  rw [hsplit, sum_map_add_int, sum_map_const_int, List.length_range,
    sum_indicator_range k (a.emod (k : ℤ)) (by exact Int.emod_nonneg a hkz)]
  have hlt : a.emod (k : ℤ) < (k : ℤ) :=
    Int.emod_lt_of_pos a (by exact_mod_cast hk)
  rw [min_eq_left (le_of_lt hlt)]
  have hde : (k : ℤ) * a.ediv (k : ℤ) + a.emod (k : ℤ) = a :=
    Int.ediv_add_emod a (k : ℤ)
  omega

lemma subAward_nonneg {a : ℤ} (k i : ℕ) (ha : 0 ≤ a) : 0 ≤ subAward a k i := by
  unfold subAward
  have h1 : 0 ≤ a.ediv (k : ℤ) := Int.ediv_nonneg ha (by positivity)
  split <;> omega

/-! ## Lemmas about the per-project log rows -/

lemma enum_map_comp {α β : Type} (l : List α) (F : ℕ → β) :
    l.enum.map (fun iu => F iu.1) = (List.range l.length).map F := by
  have h1 : (fun (iu : ℕ × α) => F iu.1) = F ∘ Prod.fst := rfl
  rw [h1, ← List.map_map, List.enum_map_fst]

lemma sum_map_filter_pos (l : List LogEntry)
    (h : ∀ e ∈ l, 0 ≤ e.adsAllocated) :
    ((l.filter (fun e => 0 < e.adsAllocated)).map
      (fun e => e.adsAllocated)).sum
      = (l.map (fun e => e.adsAllocated)).sum := by
  induction l with
  | nil => rfl
  | cons x xs ih =>
    have hx := h x (by simp)
    have ihx := ih (fun e he => h e (by simp [he]))
    by_cases hp : 0 < x.adsAllocated
    · simp only [List.filter_cons, List.map_cons, List.sum_cons]
      rw [if_pos (by simpa using hp)]
      simp only [List.map_cons, List.sum_cons]
      rw [ihx]
    · have hx0 : x.adsAllocated = 0 := le_antisymm (not_lt.mp hp) hx
      simp only [List.filter_cons, List.map_cons, List.sum_cons]
      rw [if_neg (by simpa using hp), ihx, hx0, zero_add]

lemma rowsFor_map_ads (region emp : String) (r : RawProject) (a : ℤ) :
    ((rowsFor region emp r a).map (fun e => e.adsAllocated)).sum
      = ((subAwards a (parseUnits r.unitTypesInProject).length).filter
          (fun z => 0 < z)).sum := by
  simp only [rowsFor, subAwards]
  generalize parseUnits r.unitTypesInProject = us
  rw [← List.enum_map_fst us]
  generalize subAward a us.length = h
  generalize us.enum = L
  induction L with
  | nil => rfl
  | cons x xs ih =>
    simp only [List.map_cons, List.filter_cons]
    by_cases hp : 0 < h x.1
    · rw [if_pos (by simpa using hp), if_pos (by simpa using hp)]
      simp only [List.map_cons, List.sum_cons]
      rw [ih]
    · rw [if_neg (by simpa using hp), if_neg (by simpa using hp), ih]

lemma rowsFor_sum (region emp : String) (r : RawProject) (a : ℤ)
    (ha : 0 < a) (hu : parseUnits r.unitTypesInProject ≠ []) :
    ((rowsFor region emp r a).map (fun e => e.adsAllocated)).sum = a := by
  have hk : 0 < (parseUnits r.unitTypesInProject).length :=
    List.length_pos.mpr hu
  rw [rowsFor_map_ads]
  have hnn : ∀ z ∈ subAwards a (parseUnits r.unitTypesInProject).length, 0 ≤ z := by
    intro z hz
    obtain ⟨i, _, rfl⟩ := List.mem_map.mp hz
    exact subAward_nonneg _ i (le_of_lt ha)
  have hfil : ∀ (l : List ℤ), (∀ z ∈ l, 0 ≤ z) →
      ((l.filter (fun z => 0 < z))).sum = l.sum := by
    intro l hl
    induction l with
    | nil => rfl
    | cons x xs ih =>
      have hx := hl x (by simp)
      simp only [List.filter_cons]
      by_cases hp : 0 < x
      · rw [if_pos (by simpa using hp)]
        simp only [List.sum_cons]
        rw [ih (fun z hz => hl z (by simp [hz]))]
      · have hx0 : x = 0 := le_antisymm (not_lt.mp hp) hx
        rw [if_neg (by simpa using hp), ih (fun z hz => hl z (by simp [hz])),
          List.sum_cons, hx0, zero_add]
  rw [hfil _ hnn, subAwards_sum a _ hk]

lemma mem_rowsFor {region emp : String} {r : RawProject} {a : ℤ}
    {e : LogEntry} (he : e ∈ rowsFor region emp r a) :
    e.projectID = r.projectID ∧ 0 < e.adsAllocated := by
  unfold rowsFor at he
  have h1 := List.mem_filter.mp he
  obtain ⟨iu, hiu, rfl⟩ := List.mem_map.mp h1.1
  exact ⟨rfl, of_decide_eq_true h1.2⟩

/-! ## The per-project loop as a fold -/

lemma processRow_fst (region emp : String) (acc : List LogEntry × List (String × ℤ))
    (pa : RawProject × ℤ) :
    (processRow region emp acc pa).1 = acc.1 ++ newRows region emp pa := by
  rcases le_or_lt pa.2 0 with h | h
  · simp [processRow, newRows, h, not_lt.mpr h]
  · have h' : ¬ pa.2 ≤ 0 := not_le.mpr h
    by_cases h2 : parseUnits pa.1.unitTypesInProject = []
    · simp [processRow, newRows, h', h2]
    · simp [processRow, newRows, h', h2, h]

lemma processRow_snd (region emp : String) (acc : List LogEntry × List (String × ℤ))
    (pa : RawProject × ℤ) :
    (processRow region emp acc pa).2
      = if 0 < pa.2 then upsert acc.2 pa.1.projectID pa.2 else acc.2 := by
  rcases le_or_lt pa.2 0 with h | h
  · simp [processRow, h, not_lt.mpr h]
  · have h' : ¬ pa.2 ≤ 0 := not_le.mpr h
    by_cases h2 : parseUnits pa.1.unitTypesInProject = []
    · simp [processRow, h', h2, h]
    · simp [processRow, h', h2, h]

lemma foldl_processRow_fst (region emp : String)
    (pairs : List (RawProject × ℤ)) (acc : List LogEntry × List (String × ℤ)) :
    (pairs.foldl (processRow region emp) acc).1
      = acc.1 ++ (pairs.map (newRows region emp)).flatten := by
  induction pairs generalizing acc with
  | nil => simp
  | cons p ps ih =>
    simp only [List.foldl_cons, List.map_cons, List.flatten_cons]
    rw [ih, processRow_fst, List.append_assoc]

lemma upsert_not_mem {m : List (String × ℤ)} {k : String} {v : ℤ}
    (h : k ∉ m.map Prod.fst) : upsert m k v = m ++ [(k, v)] := by
  induction m with
  | nil => rfl
  | cons p ps ih =>
    obtain ⟨k', v'⟩ := p
    have hk : k' ≠ k := by
      intro e
      exact h (by simp [e])
    unfold upsert
    rw [if_neg hk, ih (fun hm => h (by simp [hm]))]
    rfl

lemma foldl_processRow_snd (region emp : String)
    (pairs : List (RawProject × ℤ)) (acc : List LogEntry × List (String × ℤ))
    (hnd : (pairs.map (fun pa => pa.1.projectID)).Nodup)
    (hdisj : ∀ pa ∈ pairs, pa.1.projectID ∉ acc.2.map Prod.fst) :
    (pairs.foldl (processRow region emp) acc).2
      = acc.2 ++ (pairs.filter (fun pa => 0 < pa.2)).map
          (fun pa => (pa.1.projectID, pa.2)) := by
  induction pairs generalizing acc with
  | nil => simp
  | cons p ps ih =>
    simp only [List.map_cons, List.nodup_cons] at hnd
    simp only [List.foldl_cons, List.filter_cons]
    have hsnd := processRow_snd region emp acc p
    by_cases hp : 0 < p.2
    · have hup : (processRow region emp acc p).2
          = acc.2 ++ [(p.1.projectID, p.2)] := by
        rw [hsnd, if_pos hp, upsert_not_mem (hdisj p (by simp))]
      have hdisj' : ∀ pa ∈ ps, pa.1.projectID
          ∉ ((processRow region emp acc p).2).map Prod.fst := by
        intro pa hpa
        rw [hup]
        simp only [List.map_append, List.mem_append]
        rintro (hmem | hmem)
        · exact hdisj pa (by simp [hpa]) hmem
        · simp only [List.map_cons, List.map_nil, List.mem_singleton] at hmem
          exact hnd.1 (hmem ▸ List.mem_map_of_mem (fun pa => pa.1.projectID) hpa)
      rw [ih (processRow region emp acc p) hnd.2 hdisj', hup,
        if_pos (by simpa using hp)]
      simp [List.append_assoc]
    · have hacc : (processRow region emp acc p).2 = acc.2 := by
        rw [hsnd, if_neg hp]
      have hdisj' : ∀ pa ∈ ps, pa.1.projectID
          ∉ ((processRow region emp acc p).2).map Prod.fst := by
        intro pa hpa
        rw [hacc]
        exact hdisj pa (by simp [hpa])
      rw [ih (processRow region emp acc p) hnd.2 hdisj', hacc,
        if_neg (by simpa using hp)]

/-! ## Distribute-level bridge lemmas -/

lemma weightsOf_length (df : Snapshot) (region : String) :
    (weightsOf df region).length = (eligRows df region).length := by
  simp [weightsOf]

lemma projAwards_length (df : Snapshot) (region : String) (Q : ℕ) :
    (projAwards df region Q).length = (eligRows df region).length := by
  rw [projAwards, apportion_length, weightsOf_length]

lemma weightsOf_nonneg (df : Snapshot) (region : String) :
    ∀ w ∈ weightsOf df region, 0 ≤ w := by
  intro w hw
  simp only [weightsOf, List.mem_map] at hw
  obtain ⟨r, _, rfl⟩ := hw
  exact le_max_right _ 0

lemma projAwards_nonneg (df : Snapshot) (region : String) (Q : ℕ) :
    ∀ a ∈ projAwards df region Q, 0 ≤ a :=
  apportion_nonneg _ Q (weightsOf_nonneg df region)

lemma awardPairs_cases (df : Snapshot) (region : String) (Q : ℕ) :
    awardPairs df region Q = []
    ∨ (requiredPresent df ∧ eligRows df region ≠ []
        ∧ ¬ (weightsOf df region).sum ≤ 0
        ∧ awardPairs df region Q
            = (eligRows df region).zip (projAwards df region Q)) := by
  by_cases h1 : requiredPresent df
  · by_cases h2 : eligRows df region = []
    · left; simp [awardPairs, h1, h2]
    · by_cases h3 : (weightsOf df region).sum ≤ 0
      · left; simp [awardPairs, h1, h2, h3]
      · right
        exact ⟨h1, h2, h3, by simp [awardPairs, h1, h2, h3]⟩
  · left; simp [awardPairs, h1]

lemma awardPairs_mem {df : Snapshot} {region : String} {Q : ℕ}
    {pa : RawProject × ℤ} (hmem : pa ∈ awardPairs df region Q) :
    pa.1 ∈ eligRows df region ∧ pa.2 ∈ projAwards df region Q := by
  obtain ⟨r, a⟩ := pa
  rcases awardPairs_cases df region Q with h | ⟨_, _, _, h⟩
  · rw [h] at hmem
    simp at hmem
  · rw [h] at hmem
    exact List.of_mem_zip hmem

lemma awardPairs_nonneg {df : Snapshot} {region : String} {Q : ℕ}
    {pa : RawProject × ℤ} (hmem : pa ∈ awardPairs df region Q) :
    0 ≤ pa.2 :=
  projAwards_nonneg df region Q pa.2 (awardPairs_mem hmem).2

lemma awardPairs_map_fst (df : Snapshot) (region : String) (Q : ℕ)
    (h : awardPairs df region Q
        = (eligRows df region).zip (projAwards df region Q)) :
    (awardPairs df region Q).map (fun pa => pa.1.projectID)
      = (eligRows df region).map RawProject.projectID := by
  rw [h, show (fun (pa : RawProject × ℤ) => pa.1.projectID)
      = RawProject.projectID ∘ Prod.fst from rfl, ← List.map_map,
    List.map_fst_zip _ _ (by rw [projAwards_length])]

lemma distribute_fst (df : Snapshot) (region : String) (Q : ℕ) (emp : String) :
    (distribute df region Q emp).1
      = ((awardPairs df region Q).map (newRows region emp)).flatten := by
  by_cases h1 : requiredPresent df
  · by_cases h2 : eligRows df region = []
    · simp [distribute, awardPairs, h1, h2]
    · by_cases h3 : (weightsOf df region).sum ≤ 0
      · simp [distribute, awardPairs, h1, h2, h3]
      · simp only [distribute, awardPairs, if_pos h1, if_neg h2, if_neg h3]
        rw [foldl_processRow_fst]
        simp
  · simp [distribute, awardPairs, h1]

lemma distribute_total (df : Snapshot) (region : String) (Q : ℕ) (emp : String) :
    (distribute df region Q emp).2.2.1
      = ((awardPairs df region Q).map Prod.snd).sum := by
  by_cases h1 : requiredPresent df
  · by_cases h2 : eligRows df region = []
    · simp [distribute, awardPairs, h1, h2]
    · by_cases h3 : (weightsOf df region).sum ≤ 0
      · simp [distribute, awardPairs, h1, h2, h3]
      · simp only [distribute, awardPairs, if_pos h1, if_neg h2, if_neg h3]
        rw [List.map_snd_zip _ _ (by rw [projAwards_length])]
  · simp [distribute, awardPairs, h1]

lemma distribute_snd (df : Snapshot) (region : String) (Q : ℕ) (emp : String)
    (hnd : ((eligRows df region).map RawProject.projectID).Nodup) :
    (distribute df region Q emp).2.1
      = ((awardPairs df region Q).filter (fun pa => 0 < pa.2)).map
          (fun pa => (pa.1.projectID, pa.2)) := by
  by_cases h1 : requiredPresent df
  · by_cases h2 : eligRows df region = []
    · simp [distribute, awardPairs, h1, h2]
    · by_cases h3 : (weightsOf df region).sum ≤ 0
      · simp [distribute, awardPairs, h1, h2, h3]
      · have hzip : awardPairs df region Q
            = (eligRows df region).zip (projAwards df region Q) := by
          simp [awardPairs, h1, h2, h3]
        have hnd' : (((eligRows df region).zip (projAwards df region Q)).map
            (fun pa => pa.1.projectID)).Nodup := by
          rw [← hzip, awardPairs_map_fst df region Q hzip]
          exact hnd
        simp only [distribute, if_pos h1, if_neg h2, if_neg h3]
        rw [foldl_processRow_snd region emp _ _ hnd' (by simp), ← hzip]
        simp
  · simp [distribute, awardPairs, h1]

/-! ## Support lemmas for the claims -/

lemma le_foldl_max (ys : List ℚ) : ∀ (a x : ℚ), (x ≤ a ∨ x ∈ ys) → x ≤ ys.foldl max a := by
  induction ys with
  | nil =>
    rintro a x (h | h)
    · simpa using h
    · simp at h
  | cons y ys ih =>
    rintro a x (h | h)
    · exact ih (max a y) x (Or.inl (le_trans h (le_max_left a y)))
    · rcases List.mem_cons.mp h with rfl | h'
      · exact ih (max a x) x (Or.inl (le_max_right a x))
      · exact ih (max a y) x (Or.inr h')

lemma le_listMax {l : List ℚ} {x : ℚ} (hx : x ∈ l) : x ≤ listMax l := by
  cases l with
  | nil => simp at hx
  | cons y ys =>
    rcases List.mem_cons.mp hx with rfl | h'
    · exact le_foldl_max ys x x (Or.inl le_rfl)
    · exact le_foldl_max ys y x (Or.inr h')

lemma newRows_sum (region emp : String) (pa : RawProject × ℤ) :
    ((newRows region emp pa).map (fun e => e.adsAllocated)).sum
      = if 0 < pa.2 ∧ parseUnits pa.1.unitTypesInProject ≠ [] then pa.2
        else 0 := by
  unfold newRows
  split
  case isTrue h => exact rowsFor_sum region emp pa.1 pa.2 h.1 h.2
  case isFalse h => simp

lemma mem_distribute_log {df : Snapshot} {region : String} {Q : ℕ}
    {emp : String} {e : LogEntry} (he : e ∈ (distribute df region Q emp).1) :
    ∃ pa ∈ awardPairs df region Q,
      0 < pa.2 ∧ parseUnits pa.1.unitTypesInProject ≠ []
      ∧ e.projectID = pa.1.projectID ∧ 0 < e.adsAllocated := by
  rw [distribute_fst] at he
  rw [List.mem_flatten] at he
  obtain ⟨l, hl, hel⟩ := he
  obtain ⟨pa, hpa, rfl⟩ := List.mem_map.mp hl
  unfold newRows at hel
  split at hel
  case isTrue hcond =>
    obtain ⟨hpid, hads⟩ := mem_rowsFor hel
    exact ⟨pa, hpa, hcond.1, hcond.2, hpid, hads⟩
  case isFalse hcond => simp at hel

lemma lookup_positives {pairs : List (RawProject × ℤ)} {pa : RawProject × ℤ}
    (hnd : (pairs.map (fun x => x.1.projectID)).Nodup)
    (hmem : pa ∈ pairs) (hpos : 0 < pa.2) :
    lookupMap ((pairs.filter (fun x => 0 < x.2)).map
        (fun x => (x.1.projectID, x.2))) pa.1.projectID = some pa.2 := by
  induction pairs with
  | nil => simp at hmem
  | cons p ps ih =>
    simp only [List.map_cons, List.nodup_cons] at hnd
    rcases List.mem_cons.mp hmem with rfl | hmem'
    · rw [List.filter_cons_of_pos (by simpa using hpos)]
      simp [lookupMap]
    · have hne : p.1.projectID ≠ pa.1.projectID := by
        intro h
        exact hnd.1 (h ▸ List.mem_map_of_mem (fun x => x.1.projectID) hmem')
      by_cases hp : 0 < p.2
      · rw [List.filter_cons_of_pos (by simpa using hp)]
        simp only [List.map_cons, lookupMap]
        rw [if_neg hne]
        exact ih hnd.2 hmem'
      · rw [List.filter_cons_of_neg (by simpa using hp)]
        exact ih hnd.2 hmem'

lemma awardPairs_nodup (df : Snapshot) (region : String) (Q : ℕ)
    (hnd : ((eligRows df region).map RawProject.projectID).Nodup) :
    ((awardPairs df region Q).map (fun x => x.1.projectID)).Nodup := by
  rcases awardPairs_cases df region Q with h | ⟨_, _, _, h⟩
  · rw [h]
    exact List.nodup_nil
  · rw [awardPairs_map_fst df region Q h]
    exact hnd

lemma sum_snd_filter_pos (pairs : List (RawProject × ℤ))
    (h : ∀ pa ∈ pairs, 0 ≤ pa.2) :
    ((pairs.filter (fun pa => 0 < pa.2)).map Prod.snd).sum
      = (pairs.map Prod.snd).sum := by
  induction pairs with
  | nil => rfl
  | cons p ps ih =>
    have hp0 := h p (by simp)
    have ihx := ih (fun pa hpa => h pa (by simp [hpa]))
    by_cases hp : 0 < p.2
    · rw [List.filter_cons_of_pos (by simpa using hp)]
      simp only [List.map_cons, List.sum_cons]
      rw [ihx]
    · have hz : p.2 = 0 := le_antisymm (not_lt.mp hp) hp0
      rw [List.filter_cons_of_neg (by simpa using hp)]
      simp only [List.map_cons, List.sum_cons]
      rw [ihx, hz, zero_add]

lemma sum_split_pairs (pairs : List (RawProject × ℤ))
    (h : ∀ pa ∈ pairs, 0 ≤ pa.2) :
    (pairs.map (fun pa =>
        if 0 < pa.2 ∧ parseUnits pa.1.unitTypesInProject ≠ [] then pa.2
        else 0)).sum
    + (pairs.map (fun pa =>
        if 0 < pa.2 ∧ parseUnits pa.1.unitTypesInProject = [] then pa.2
        else 0)).sum
    = (pairs.map Prod.snd).sum := by
  induction pairs with
  | nil => simp
  | cons p ps ih =>
    have hp0 := h p (by simp)
    have ihx := ih (fun pa hpa => h pa (by simp [hpa]))
    simp only [List.map_cons, List.sum_cons]
    by_cases hp : 0 < p.2
    · by_cases hu : parseUnits p.1.unitTypesInProject = []
      · rw [if_neg (by simp [hu]), if_pos ⟨hp, hu⟩]
        omega
      · rw [if_pos ⟨hp, hu⟩, if_neg (by simp [hu])]
        omega
    · have hz : p.2 = 0 := le_antisymm (not_lt.mp hp) hp0
      rw [if_neg (by simp [hp]), if_neg (by simp [hp])]
      omega

lemma dropped_terms_nonneg (pairs : List (RawProject × ℤ)) :
    ∀ z ∈ pairs.map (fun pa =>
        if 0 < pa.2 ∧ parseUnits pa.1.unitTypesInProject = [] then pa.2
        else 0), 0 ≤ z := by
  intro z hz
  obtain ⟨pa, _, rfl⟩ := List.mem_map.mp hz
  split
  case isTrue hc => exact le_of_lt hc.1
  case isFalse hc => exact le_rfl

lemma dropped_sum_zero_iff (pairs : List (RawProject × ℤ)) :
    (pairs.map (fun pa =>
        if 0 < pa.2 ∧ parseUnits pa.1.unitTypesInProject = [] then pa.2
        else 0)).sum = 0
    ↔ ∀ pa ∈ pairs, 0 < pa.2 → parseUnits pa.1.unitTypesInProject ≠ [] := by
  induction pairs with
  | nil => simp
  | cons p ps ih =>
    simp only [List.map_cons, List.sum_cons]
    have hrest := dropped_terms_nonneg ps
    have hrest_sum : 0 ≤ (ps.map (fun pa =>
        if 0 < pa.2 ∧ parseUnits pa.1.unitTypesInProject = [] then pa.2
        else 0)).sum := List.sum_nonneg hrest
    constructor
    · intro h0
      by_cases hp : 0 < p.2 ∧ parseUnits p.1.unitTypesInProject = []
      · rw [if_pos hp] at h0
        exfalso
        have := hp.1
        omega
      · rw [if_neg hp] at h0
        intro pa hpa hpos
        rcases List.mem_cons.mp hpa with rfl | hpa'
        · intro hu
          exact hp ⟨hpos, hu⟩
        · exact (ih.mp (by omega)) pa hpa' hpos
    · intro hall
      have hhead : (if 0 < p.2 ∧ parseUnits p.1.unitTypesInProject = []
          then p.2 else 0) = 0 := by
        by_cases hp : 0 < p.2 ∧ parseUnits p.1.unitTypesInProject = []
        · exact absurd hp.2 (hall p (by simp) hp.1)
        · exact if_neg hp
      rw [hhead, zero_add]
      exact ih.mpr (fun pa hpa => hall pa (by simp [hpa]))

/-! ## Claim theorems -/

/-- C1: for every snapshot with all required columns whose eligible set is
non-empty and has positive total score, and every requested quantity
`Q > 0`, the integer awards sum to exactly `Q`, and the returned
`total_ads_allocated` equals `Q`. -/
theorem c1_conservation (df : Snapshot) (region : String) (Q : ℕ) (emp : String)
    (hreq : requiredPresent df) (hne : eligRows df region ≠ [])
    (hpos : 0 < (weightsOf df region).sum) (hQ : 0 < Q) :
    (projAwards df region Q).sum = (Q : ℤ)
    ∧ (distribute df region Q emp).2.2.1 = (Q : ℤ) := by
  have h1 : (projAwards df region Q).sum = (Q : ℤ) := apportion_sum _ Q hpos
  refine ⟨h1, ?t⟩
  have hzip : awardPairs df region Q
      = (eligRows df region).zip (projAwards df region Q) := by
    simp [awardPairs, hreq, hne, not_le.mpr hpos]
  rw [distribute_total, hzip, List.map_snd_zip _ _ (by rw [projAwards_length])]
  exact h1

/-- C2: when a positive award `a` is split over a non-empty unit-type list of
length `k`, the sub-awards are `a // k`, plus one extra unit for exactly the
first `a % k` unit types in listed order, and they sum to exactly `a`. -/
theorem c2_subaward_conservation (a : ℤ) (units : List String)
    (ha : 0 < a) (hu : units ≠ []) :
    (subAwards a units.length).sum = a
    ∧ (∀ i, i < (a.emod (units.length : ℤ)).toNat →
        subAward a units.length i = a.ediv (units.length : ℤ) + 1)
    ∧ (∀ i, (a.emod (units.length : ℤ)).toNat ≤ i →
        subAward a units.length i = a.ediv (units.length : ℤ)) := by
  have hk : 0 < units.length := List.length_pos.mpr hu
  have hkz : (units.length : ℤ) ≠ 0 := by exact_mod_cast hk.ne'
  have hm : 0 ≤ a.emod (units.length : ℤ) := Int.emod_nonneg a hkz
  refine ⟨subAwards_sum a units.length hk, ?eh, ?el⟩
  case eh =>
    intro i hi
    unfold subAward
    rw [if_pos (by omega)]
  case el =>
    intro i hi
    unfold subAward
    rw [if_neg (by omega)]
    omega

/-- C3 (amended): for eligible sets small enough that numpy's default
argsort is its stable insertion sort (at most 15 entries, within the
`SMALL_QUICKSORT` cutoff), the order in which `distribute_ads_automatically`
hands out the remainder units is a permutation of the eligible indices
ranked by strictly descending fractional part with equal fractional parts
in *reverse* input order — pandas sorts ascending stably and then reverses —
not the original input order claimed; above that size numpy's introsort
leaves the tie order unspecified. -/
theorem c3_amended_tie_order (ws : List ℚ) (Q : ℕ) (hsmall : ws.length ≤ 15) :
    List.Perm (assignOrderOf ws Q) (List.range ws.length)
    ∧ (assignOrderOf ws Q).Pairwise
        (fun i j => fracAt ws Q j < fracAt ws Q i
          ∨ (fracAt ws Q j = fracAt ws Q i ∧ j < i)) := by
  constructor
  · unfold assignOrderOf
    exact (List.reverse_perm _).trans (argsortAsc_perm _ _)
  · unfold assignOrderOf
    rw [List.pairwise_reverse]
    exact pairwise_argsortAsc (fracAt ws Q) ws.length

/-- C4 (amended): for a fixed weight vector with positive sum, raising the
requested quantity from `Q` to `Q + 1` raises the total of the awards by
exactly one; individual awards, however, are not stable (more than one can
change and one can decrease — the Alabama paradox — as the counterexample
shows). -/
theorem c4_amended_total_step (ws : List ℚ) (Q : ℕ) (hpos : 0 < ws.sum) :
    (apportion ws (Q + 1)).sum = (apportion ws Q).sum + 1 := by
  rw [apportion_sum ws Q hpos, apportion_sum ws (Q + 1) hpos]
  push_cast
  ring

/-- C5 (amended): for every eligible row, `PriorityScore ≥ 1 ≥ 0`,
`DemandScore = 5 ≥ 0`, `RemainingSizeScore ≥ 0`, `TotalScore ≥ 0`; the
project awards and every logged sub-award are `≥ 0` unconditionally; but
`ExcellenceScoreCalc` is only non-negative when the coerced
`ProjectExcellenceScore` is (a negative input makes it negative, as the
counterexample shows). -/
theorem c5_amended_nonneg (df : Snapshot) (region : String) (r : RawProject)
    (hr : r ∈ eligRows df region) :
    0 ≤ priorityScore (listMax ((eligRows df region).map orderVal)) r
    ∧ 0 ≤ demandScore
    ∧ 0 ≤ remainingSizeScore r
    ∧ 0 ≤ totalScore (listMax ((eligRows df region).map orderVal)) r
    ∧ (0 ≤ numVal r.projectExcellenceScore → 0 ≤ excellenceScore r)
    ∧ (∀ Q, ∀ a ∈ projAwards df region Q, 0 ≤ a)
    ∧ (∀ Q emp, ∀ e ∈ (distribute df region Q emp).1, 0 ≤ e.adsAllocated) := by
  have hmo : orderVal r ≤ listMax ((eligRows df region).map orderVal) :=
    le_listMax (List.mem_map_of_mem orderVal hr)
  refine ⟨?p, ?d, ?re, ?t, ?e, ?aw, ?lg⟩
  case p => unfold priorityScore; linarith
  case d => norm_num [demandScore]
  case re => exact le_max_right _ 0
  case t => exact le_max_right _ 0
  case e =>
    intro h
    unfold excellenceScore
    exact div_nonneg h (by norm_num)
  case aw => exact fun Q a ha => projAwards_nonneg df region Q a ha
  case lg =>
    intro Q emp e he
    obtain ⟨pa, _, _, _, _, hpos⟩ := mem_distribute_log he
    exact le_of_lt hpos

/-- C7: when any of the eight required columns is missing,
`distribute_ads_automatically` returns an empty log, an empty update map and
a zero total, leaving the snapshot untouched. -/
theorem c7_missing_column (df : Snapshot) (region : String) (Q : ℕ)
    (emp : String) (h : ¬ requiredPresent df) :
    distribute df region Q emp = ([], [], 0, df) := by
  simp [distribute, h]

/-- C8: a positively-awarded eligible project whose unit-type list parses
empty still appears in the project-update map with its full award and its
award still counts toward `total_ads_allocated`, but it contributes no log
rows. -/
theorem c8_dropped_project (df : Snapshot) (region : String) (Q : ℕ)
    (emp : String)
    (hnd : ((eligRows df region).map RawProject.projectID).Nodup)
    (pa : RawProject × ℤ) (hmem : pa ∈ awardPairs df region Q)
    (hpos : 0 < pa.2) (hu : parseUnits pa.1.unitTypesInProject = []) :
    lookupMap (distribute df region Q emp).2.1 pa.1.projectID = some pa.2
    ∧ (distribute df region Q emp).1.filter
        (fun e => e.projectID == pa.1.projectID) = []
    ∧ pa.2 ≤ (distribute df region Q emp).2.2.1 := by
  refine ⟨?lk, ?fl, ?le⟩
  case lk =>
    rw [distribute_snd df region Q emp hnd]
    exact lookup_positives (awardPairs_nodup df region Q hnd) hmem hpos
  case fl =>
    rw [List.filter_eq_nil_iff]
    intro e he hbeq
    obtain ⟨pa2, hpa2, _, hu2, hpid, _⟩ := mem_distribute_log he
    have heq : e.projectID = pa.1.projectID := eq_of_beq hbeq
    have hf : pa2.1.projectID = pa.1.projectID := by rw [← hpid, heq]
    have hinj := List.inj_on_of_nodup_map (awardPairs_nodup df region Q hnd)
      hpa2 hmem hf
    rw [hinj] at hu2
    exact hu2 hu
  case le =>
    rw [distribute_total]
    refine List.single_le_sum ?nn pa.2
      (List.mem_map_of_mem Prod.snd hmem)
    intro x hx
    obtain ⟨pa2, hpa2, rfl⟩ := List.mem_map.mp hx
    exact awardPairs_nonneg hpa2

/-- C9: in every return, `total_ads_allocated` equals the sum of the values
of the project-update map (zero-award projects appear in neither, each map
value is positive, and the early-return cases give `0` and the empty map),
provided the snapshot's `ProjectID`s are unique as the data model demands. -/
theorem c9_total_matches_map (df : Snapshot) (region : String) (Q : ℕ)
    (emp : String)
    (hnd : ((eligRows df region).map RawProject.projectID).Nodup) :
    (distribute df region Q emp).2.2.1
      = ((distribute df region Q emp).2.1.map Prod.snd).sum
    ∧ ∀ p ∈ (distribute df region Q emp).2.1, 0 < p.2 := by
  constructor
  · rw [distribute_total, distribute_snd df region Q emp hnd, List.map_map]
    have hcomp : (Prod.snd ∘ fun (pa : RawProject × ℤ) =>
        (pa.1.projectID, pa.2)) = Prod.snd := rfl
    rw [hcomp, sum_snd_filter_pos _ (fun pa hpa => awardPairs_nonneg hpa)]
  · intro p hp
    rw [distribute_snd df region Q emp hnd] at hp
    obtain ⟨pa, hpa, rfl⟩ := List.mem_map.mp hp
    exact of_decide_eq_true (List.mem_filter.mp hpa).2

/-- C10: in every return, the log's `AdsAllocated` column sums to
`total_ads_allocated` minus the awards of positively-awarded projects whose
unit-type list parsed empty; hence the log sum never exceeds the total, with
equality exactly when every positively-awarded project has at least one
parsed unit type; and every log row is strictly positive. -/
theorem c10_log_accounting (df : Snapshot) (region : String) (Q : ℕ)
    (emp : String) :
    ((distribute df region Q emp).1.map (fun e => e.adsAllocated)).sum
      = (distribute df region Q emp).2.2.1 - droppedSum df region Q
    ∧ ((distribute df region Q emp).1.map (fun e => e.adsAllocated)).sum
        ≤ (distribute df region Q emp).2.2.1
    ∧ (((distribute df region Q emp).1.map (fun e => e.adsAllocated)).sum
        = (distribute df region Q emp).2.2.1
        ↔ ∀ pa ∈ awardPairs df region Q, 0 < pa.2 →
            parseUnits pa.1.unitTypesInProject ≠ [])
    ∧ ∀ e ∈ (distribute df region Q emp).1, 0 < e.adsAllocated := by
  have hnn : ∀ pa ∈ awardPairs df region Q, 0 ≤ pa.2 :=
    fun pa hpa => awardPairs_nonneg hpa
  have hlog : ((distribute df region Q emp).1.map
      (fun e => e.adsAllocated)).sum
      = ((awardPairs df region Q).map (fun pa =>
          if 0 < pa.2 ∧ parseUnits pa.1.unitTypesInProject ≠ [] then pa.2
          else 0)).sum := by
    rw [distribute_fst, List.map_flatten, List.sum_flatten, List.map_map,
      List.map_map]
    have hfun : ((fun l => List.sum l) ∘ (List.map (fun e => e.adsAllocated))
        ∘ newRows region emp)
        = fun pa => if 0 < pa.2 ∧ parseUnits pa.1.unitTypesInProject ≠ []
            then pa.2 else 0 :=
      funext (newRows_sum region emp)
    rw [← hfun]
    rfl
  have htot : (distribute df region Q emp).2.2.1
      = ((awardPairs df region Q).map Prod.snd).sum := distribute_total _ _ _ _
  have hsplit := sum_split_pairs (awardPairs df region Q) hnn
  have hdrop : droppedSum df region Q
      = ((awardPairs df region Q).map (fun pa =>
          if 0 < pa.2 ∧ parseUnits pa.1.unitTypesInProject = [] then pa.2
          else 0)).sum := rfl
  have hdropnn : 0 ≤ droppedSum df region Q := by
    rw [hdrop]
    exact List.sum_nonneg (dropped_terms_nonneg _)
  have hmain : ((distribute df region Q emp).1.map
      (fun e => e.adsAllocated)).sum
      = (distribute df region Q emp).2.2.1 - droppedSum df region Q := by
    rw [hlog, htot, hdrop]
    omega
  refine ⟨hmain, by omega, ?iff, ?ent⟩
  case iff =>
    rw [hmain, hdrop]
    constructor
    · intro h
      exact (dropped_sum_zero_iff _).mp (by rw [← hdrop]; omega)
    · intro h
      have := (dropped_sum_zero_iff _).mpr h
      rw [← hdrop] at this
      omega
  case ent =>
    intro e he
    obtain ⟨pa, _, _, _, _, hpos⟩ := mem_distribute_log he
    exact hpos

/-! ## Idempotence of the in-place numeric coercion (C6) -/

lemma toNumeric_idem (c : Cell) : c.toNumeric.toNumeric = c.toNumeric := by
  cases c with
  | num q => rfl
  | na => rfl
  | str s =>
    cases h : parseRat? s with
    | none => simp [Cell.toNumeric, h]
    | some q => simp [Cell.toNumeric, h]

lemma coerceRow_idem (r : RawProject) : coerceRow (coerceRow r) = coerceRow r := by
  unfold coerceRow
  simp [toNumeric_idem]

lemma coerceDF_idem (df : Snapshot) : coerceDF (coerceDF df) = coerceDF df := by
  unfold coerceDF
  simp only [List.map_map]
  rw [show coerceRow ∘ coerceRow = coerceRow from funext coerceRow_idem]

lemma requiredPresent_coerce (df : Snapshot) :
    requiredPresent (coerceDF df) = requiredPresent df := rfl

lemma eligRows_coerce (df : Snapshot) (region : String) :
    eligRows (coerceDF df) region = eligRows df region := by
  unfold eligRows
  rw [coerceDF_idem]

lemma weightsOf_coerce (df : Snapshot) (region : String) :
    weightsOf (coerceDF df) region = weightsOf df region := by
  unfold weightsOf
  rw [eligRows_coerce]

lemma projAwards_coerce (df : Snapshot) (region : String) (Q : ℕ) :
    projAwards (coerceDF df) region Q = projAwards df region Q := by
  unfold projAwards
  rw [weightsOf_coerce]

/-- C6 (amended): the call mutates the caller's snapshot — the four numeric
columns are coerced in place, as the counterexample shows — but the
mutation is idempotent: re-running the call on the snapshot it left behind
reproduces exactly the same log, update map, total, and final snapshot. -/
theorem c6_amended_idempotent (df : Snapshot) (region : String) (Q : ℕ)
    (emp : String) :
    distribute (distribute df region Q emp).2.2.2 region Q emp
      = distribute df region Q emp := by
  by_cases hreq : requiredPresent df
  · have h4 : (distribute df region Q emp).2.2.2 = coerceDF df := by
      by_cases h2 : eligRows df region = []
      · simp [distribute, hreq, h2]
      · by_cases h3 : (weightsOf df region).sum ≤ 0
        · simp [distribute, hreq, h2, h3]
        · simp [distribute, hreq, h2, h3]
    rw [h4]
    simp only [distribute, requiredPresent_coerce, eligRows_coerce,
      weightsOf_coerce, projAwards_coerce, coerceDF_idem]
    simp [hreq]
  · have h4 : (distribute df region Q emp).2.2.2 = df := by
      simp [distribute, hreq]
    rw [h4]

/-! ## Concrete witnesses and counterexamples -/

/-- Two identically-scored eligible projects (used for C3): equal
`TotalScore`, hence equal fractional parts for any `Q`. -/
def c3rowA : RawProject :=
  ⟨"1", some "n", some "yes", Cell.num 1, Cell.num 0, Cell.num 0, Cell.num 0,
   some "a"⟩

def c3rowB : RawProject :=
  ⟨"2", some "n", some "yes", Cell.num 1, Cell.num 0, Cell.num 0, Cell.num 0,
   some "a"⟩

def c3df : Snapshot := ⟨requiredCols, [c3rowA, c3rowB]⟩

/-- C3 (counterexample): with two eligible projects of equal fractional part
and one remainder unit, the extra unit goes to the *second* project —
awards `[0, 1]` — not to the first as original-input-order tie-breaking
would demand. -/
theorem c3_counterexample :
    fracAt (weightsOf c3df "n") 1 0 = fracAt (weightsOf c3df "n") 1 1
    ∧ projAwards c3df "n" 1 = [0, 1] := by
  have he : eligRows c3df "n" = [c3rowA, c3rowB] := by decide
  have hw : weightsOf c3df "n" = [6, 6] := by
    simp only [weightsOf, he]
    norm_num [listMax, totalScore, priorityScore, demandScore, excellenceScore,
      remainingSizeScore, orderVal, numVal, max_def, c3rowA, c3rowB]
  have hf1 : ⌊(1:ℚ)/2⌋ = 0 := by rw [Int.floor_eq_iff]; norm_num
  have hf2 : ⌊(2:ℚ)⁻¹⌋ = 0 := by rw [Int.floor_eq_iff]; norm_num
  constructor
  · rw [hw]
    norm_num [fracAt, sharesOf, baseOf, hf1, hf2]
  · rw [projAwards, hw]
    norm_num [apportion, assignOrderOf, numExtrasOf, baseOf, sharesOf, fracAt,
      argsortAsc, insertAsc, bumpAt, Int.fract, hf1, hf2]

/-- C4 (counterexample): with weights `[6, 6, 2]`, going from `Q = 10` to
`Q = 11` changes the awards from `[4, 4, 2]` to `[5, 5, 1]`: two awards go
up and the third goes *down* (the Alabama paradox), refuting the claim that
at most one award changes and none decreases. -/
theorem c4_counterexample :
    apportion [6, 6, 2] 10 = [4, 4, 2] ∧ apportion [6, 6, 2] 11 = [5, 5, 1]
    ∧ (apportion [6, 6, 2] 11).getD 2 0 < (apportion [6, 6, 2] 10).getD 2 0 := by
  have hfa : ⌊(30:ℚ)/7⌋ = 4 := by rw [Int.floor_eq_iff]; norm_num
  have hfb : ⌊(10:ℚ)/7⌋ = 1 := by rw [Int.floor_eq_iff]; norm_num
  have hfc : ⌊(33:ℚ)/7⌋ = 4 := by rw [Int.floor_eq_iff]; norm_num
  have hfd : ⌊(11:ℚ)/7⌋ = 1 := by rw [Int.floor_eq_iff]; norm_num
  have h10 : apportion [6, 6, 2] 10 = [4, 4, 2] := by
    norm_num [apportion, assignOrderOf, numExtrasOf, baseOf, sharesOf, fracAt,
      argsortAsc, insertAsc, bumpAt, Int.fract, hfa, hfb]
  have h11 : apportion [6, 6, 2] 11 = [5, 5, 1] := by
    norm_num [apportion, assignOrderOf, numExtrasOf, baseOf, sharesOf, fracAt,
      argsortAsc, insertAsc, bumpAt, Int.fract, hfc, hfd]
    decide
  refine ⟨h10, h11, ?lt⟩
  rw [h10, h11]
  decide

/-- An eligible project with a negative `ProjectExcellenceScore` (used for
C5). -/
def c5row : RawProject :=
  ⟨"1", some "n", some "yes", Cell.num 1, Cell.num (-50), Cell.num 0,
   Cell.num 0, some "a"⟩

def c5df : Snapshot := ⟨requiredCols, [c5row]⟩

/-- C5 (counterexample): an eligible project whose
`ProjectExcellenceScore` is `-50` gets `ExcellenceScoreCalc = -5 < 0`, so
not every computed score is non-negative on every snapshot. -/
theorem c5_counterexample :
    c5row ∈ eligRows c5df "n" ∧ excellenceScore c5row < 0 :=
  ⟨by decide, by norm_num [excellenceScore, numVal, c5row]⟩

/-- A snapshot holding numeric text (used for C6): the call coerces the
`ProjectOrder` cell `"5"` to the number `5` in place. -/
def c6row : RawProject :=
  ⟨"1", some "n", some "no", Cell.str "5", Cell.num 0, Cell.num 0, Cell.num 0,
   none⟩

def c6df : Snapshot := ⟨requiredCols, [c6row]⟩

/-- C6 (counterexample): the snapshot handed back by the call differs from
the caller's snapshot — the in-place `pd.to_numeric` pass rewrote the
textual `ProjectOrder` cell — so the function does mutate the
caller-supplied dataframe. -/
theorem c6_counterexample : (distribute c6df "n" 1 "e").2.2.2 ≠ c6df := by
  decide

/-- Two eligible projects with distinct orders (used for the C1 witness). -/
def c1rowA : RawProject :=
  ⟨"1", some "n", some "yes", Cell.num 1, Cell.num 0, Cell.num 0, Cell.num 0,
   some "a"⟩

def c1rowB : RawProject :=
  ⟨"2", some "n", some "yes", Cell.num 2, Cell.num 0, Cell.num 0, Cell.num 0,
   some "b"⟩

def c1df : Snapshot := ⟨requiredCols, [c1rowA, c1rowB]⟩

/-- C1 (witness): on a concrete two-project snapshot with weights `[7, 6]`
and `Q = 5` the hypotheses hold and the awards sum to exactly 5. -/
theorem c1_conservation_witness :
    requiredPresent c1df ∧ eligRows c1df "n" ≠ []
    ∧ 0 < (weightsOf c1df "n").sum ∧ 0 < 5
    ∧ ((projAwards c1df "n" 5).sum = ((5:ℕ) : ℤ)
        ∧ (distribute c1df "n" 5 "e").2.2.1 = ((5:ℕ) : ℤ)) := by
  have he : eligRows c1df "n" = [c1rowA, c1rowB] := by decide
  have hw : weightsOf c1df "n" = [7, 6] := by
    simp only [weightsOf, he]
    norm_num [listMax, totalScore, priorityScore, demandScore, excellenceScore,
      remainingSizeScore, orderVal, numVal, max_def, c1rowA, c1rowB]
  have hpos : 0 < (weightsOf c1df "n").sum := by
    rw [hw]
    norm_num
  exact ⟨by decide, by decide, hpos, by norm_num,
    c1_conservation c1df "n" 5 "e" (by decide) (by decide) hpos (by norm_num)⟩

/-- C2 (witness): 7 ads over the three unit types `x, y, z` give sub-awards
`⌊7/3⌋ = 2` each plus one extra for the first `7 % 3 = 1` of them, summing
to 7. -/
theorem c2_subaward_conservation_witness :
    (0:ℤ) < 7 ∧ (["x", "y", "z"] : List String) ≠ []
    ∧ ((subAwards 7 (["x", "y", "z"] : List String).length).sum = 7
       ∧ (∀ i, i < ((7:ℤ).emod (((["x", "y", "z"] : List String).length : ℕ) : ℤ)).toNat →
           subAward 7 (["x", "y", "z"] : List String).length i
             = (7:ℤ).ediv (((["x", "y", "z"] : List String).length : ℕ) : ℤ) + 1)
       ∧ (∀ i, ((7:ℤ).emod (((["x", "y", "z"] : List String).length : ℕ) : ℤ)).toNat ≤ i →
           subAward 7 (["x", "y", "z"] : List String).length i
             = (7:ℤ).ediv (((["x", "y", "z"] : List String).length : ℕ) : ℤ))) :=
  ⟨by norm_num, by decide,
    c2_subaward_conservation 7 ["x", "y", "z"] (by norm_num) (by decide)⟩

/-- C4 amended (witness): with weights `[1, 2]`, the award totals at
`Q = 3` and `Q = 4` differ by exactly one. -/
theorem c4_amended_total_step_witness :
    0 < ([1, 2] : List ℚ).sum
    ∧ (apportion [1, 2] (3 + 1)).sum = (apportion [1, 2] 3).sum + 1 := by
  have hpos : 0 < ([1, 2] : List ℚ).sum := by
    simp [List.sum_cons]
    norm_num
  exact ⟨hpos, c4_amended_total_step [1, 2] 3 hpos⟩

/-- An eligible project with benign inputs (used for the C5 amended
witness). -/
def c5brow : RawProject :=
  ⟨"1", some "n", some "yes", Cell.num 2, Cell.num 10, Cell.num 5, Cell.num 1,
   some "a"⟩

def c5bdf : Snapshot := ⟨requiredCols, [c5brow]⟩

/-- C5 amended (witness): the non-negativity conclusions hold at a concrete
eligible row. -/
theorem c5_amended_nonneg_witness :
    c5brow ∈ eligRows c5bdf "n"
    ∧ (0 ≤ priorityScore (listMax ((eligRows c5bdf "n").map orderVal)) c5brow
       ∧ 0 ≤ demandScore
       ∧ 0 ≤ remainingSizeScore c5brow
       ∧ 0 ≤ totalScore (listMax ((eligRows c5bdf "n").map orderVal)) c5brow
       ∧ (0 ≤ numVal c5brow.projectExcellenceScore → 0 ≤ excellenceScore c5brow)
       ∧ (∀ Q, ∀ a ∈ projAwards c5bdf "n" Q, 0 ≤ a)
       ∧ (∀ Q emp, ∀ e ∈ (distribute c5bdf "n" Q emp).1, 0 ≤ e.adsAllocated)) :=
  ⟨by decide, c5_amended_nonneg c5bdf "n" c5brow (by decide)⟩

/-- A snapshot missing seven of the eight required columns (used for the C7
witness). -/
def c7df : Snapshot := ⟨["ProjectID"], []⟩

/-- C7 (witness): on a snapshot with only a `ProjectID` column the call
returns the empty log, the empty map and a zero total, untouched. -/
theorem c7_missing_column_witness :
    (¬ requiredPresent c7df) ∧ distribute c7df "n" 3 "e" = ([], [], 0, c7df) :=
  ⟨by decide, c7_missing_column c7df "n" 3 "e" (by decide)⟩

/-- A single eligible project with no unit types listed (used for the C8
witness). -/
def c8row : RawProject :=
  ⟨"1", some "n", some "yes", Cell.num 1, Cell.num 0, Cell.num 0, Cell.num 0,
   none⟩

def c8df : Snapshot := ⟨requiredCols, [c8row]⟩

/-- C8 (witness): the sole eligible project takes all 3 ads; with no unit
types, its 3 ads appear in the update map and count toward the total while
the log stays empty. -/
theorem c8_dropped_project_witness :
    ((eligRows c8df "n").map RawProject.projectID).Nodup
    ∧ (c8row, (3:ℤ)) ∈ awardPairs c8df "n" 3
    ∧ (0:ℤ) < (c8row, (3:ℤ)).2
    ∧ parseUnits (c8row, (3:ℤ)).1.unitTypesInProject = []
    ∧ (lookupMap (distribute c8df "n" 3 "e").2.1 (c8row, (3:ℤ)).1.projectID
          = some (c8row, (3:ℤ)).2
       ∧ (distribute c8df "n" 3 "e").1.filter
           (fun e => e.projectID == (c8row, (3:ℤ)).1.projectID) = []
       ∧ (c8row, (3:ℤ)).2 ≤ (distribute c8df "n" 3 "e").2.2.1) := by
  have h1 : requiredPresent c8df := by decide
  have h2 : eligRows c8df "n" ≠ [] := by decide
  have he : eligRows c8df "n" = [c8row] := by decide
  have hw : weightsOf c8df "n" = [6] := by
    simp only [weightsOf, he]
    norm_num [listMax, totalScore, priorityScore, demandScore, excellenceScore,
      remainingSizeScore, orderVal, numVal, max_def, c8row]
  have h3 : ¬ (weightsOf c8df "n").sum ≤ 0 := by
    rw [hw]
    norm_num
  have hf : ⌊(3:ℚ)⌋ = 3 := by rw [Int.floor_eq_iff]; norm_num
  have haw : projAwards c8df "n" 3 = [3] := by
    rw [projAwards, hw]
    norm_num [apportion, assignOrderOf, numExtrasOf, baseOf, sharesOf, fracAt,
      argsortAsc, insertAsc, bumpAt, Int.fract, hf]
  have hzip : awardPairs c8df "n" 3
      = (eligRows c8df "n").zip (projAwards c8df "n" 3) := by
    simp [awardPairs, h1, h2, h3]
  have hmem : (c8row, (3:ℤ)) ∈ awardPairs c8df "n" 3 := by
    rw [hzip, he, haw]
    simp
  exact ⟨by decide, hmem, by norm_num, by decide,
    c8_dropped_project c8df "n" 3 "e" (by decide) (c8row, 3) hmem
      (by norm_num) (by decide)⟩

/-- Two distinct eligible projects (used for the C9 witness). -/
def c9rowA : RawProject :=
  ⟨"1", some "s", some "yes", Cell.num 1, Cell.num 10, Cell.num 4, Cell.num 1,
   some "a,b"⟩

def c9rowB : RawProject :=
  ⟨"2", some "s", some "yes", Cell.num 2, Cell.num 20, Cell.num 6, Cell.num 2,
   some "c"⟩

def c9df : Snapshot := ⟨requiredCols, [c9rowA, c9rowB]⟩

/-- C9 (witness): on a concrete two-project snapshot with distinct
`ProjectID`s, the returned total equals the map sum and every map value is
positive. -/
theorem c9_total_matches_map_witness :
    ((eligRows c9df "s").map RawProject.projectID).Nodup
    ∧ ((distribute c9df "s" 2 "e").2.2.1
        = ((distribute c9df "s" 2 "e").2.1.map Prod.snd).sum
       ∧ ∀ p ∈ (distribute c9df "s" 2 "e").2.1, 0 < p.2) :=
  ⟨by decide, c9_total_matches_map c9df "s" 2 "e" (by decide)⟩

/-- C3 amended (witness): the ranking facts at a concrete three-weight
vector, well within the stable small-array regime. -/
theorem c3_amended_tie_order_witness :
    ([6, 6, 2] : List ℚ).length ≤ 15
    ∧ (List.Perm (assignOrderOf [6, 6, 2] 10)
          (List.range ([6, 6, 2] : List ℚ).length)
       ∧ (assignOrderOf [6, 6, 2] 10).Pairwise
           (fun i j => fracAt [6, 6, 2] 10 j < fracAt [6, 6, 2] 10 i
             ∨ (fracAt [6, 6, 2] 10 j = fracAt [6, 6, 2] 10 i ∧ j < i))) :=
  ⟨by decide, c3_amended_tie_order [6, 6, 2] 10 (by decide)⟩

end AdDist
